import Mathlib

/-!
Verification of the Titan-Cyclotomic-Prime-Gaps scripts.

Shallow embedding of `scripts/verify_local_obstruction.py` and
`scripts/compute_bateman_horn.py`, the two source files of the repository,
followed by theorems about the embedded definitions.

Embedding conventions:
* Python integers are `ℕ`/`ℤ`; Python `%` with a positive modulus agrees with
  `Int.emod` (both return a result in `[0, m)`), and on naturals with `Nat.mod`.
* Python float arithmetic in the Euler-product accumulators is embedded as exact
  rational arithmetic (`ℚ`), preserving the order of operations.
* A Python function that can raise returns `Option`; `none` models the raise.
* Loops are embedded as structural recursions with explicit fuel equal to the
  number of iterations of the Python `range`.
-/

set_option maxRecDepth 100000

namespace Titan

/-- Embeds Python's builtin `pow(n, e, p)`: modular exponentiation, the
  residue of `n ^ e` modulo `p`. -/
def pow_mod (n e p : ℕ) : ℕ :=
  n ^ e % p

/-- Embeds the expression `(pow(n, 47, p) - pow((n - 1) % p, 47, p)) % p`
  used throughout `verify_local_obstruction.py`.  Both `pow` results lie in
  `[0, p)`, and Python `%` of their (possibly negative) difference by the
  positive `p` equals `(a + p - b) % p`; Python `(n - 1) % p` (which wraps
  `n = 0` to `p - 1`) is embedded as `(n + p - 1) % p`. -/
def Qmod (p n : ℕ) : ℕ :=
  (pow_mod n 47 p + p - pow_mod ((n + p - 1) % p) 47 p) % p

/-- Embeds the loop of `omega_brute_force`, `for n in range(p)` with the
  running `count`: the fuel is the number of remaining iterations, `n` the
  current residue and `acc` the count so far. -/
def omega_count (p : ℕ) : ℕ → ℕ → ℕ → ℕ
  | 0, _, acc => acc
  | f + 1, n, acc =>
      if Qmod p n = 0 then omega_count p f (n + 1) (acc + 1)
      else omega_count p f (n + 1) acc

/-- Embeds `omega_brute_force(p)` from `verify_local_obstruction.py`. -/
def omega_brute_force (p : ℕ) : ℕ :=
  omega_count p p 0 0

/-- Embeds `omega_theory(p)` from `verify_local_obstruction.py`. -/
def omega_theory (p : ℤ) : ℤ :=
  if p = 47 then 0 else if (p - 1) % 47 = 0 then 46 else 0

/-- Embeds `omega_Q(p)` from `compute_bateman_horn.py` (the same closed-form
  rule, defined independently in the second script). -/
def omega_Q (p : ℤ) : ℤ :=
  if p = 47 then 0 else if (p - 1) % 47 = 0 then 46 else 0

/-- Embeds the inner marking loop of the sieve,
  `for j in range(i*i, n+1, i): is_prime[j] = False`:
  `markCount i n` is the length of `range(i*i, n+1, i)`. -/
def markCount (i n : ℕ) : ℕ :=
  (n + 1 - i * i + (i - 1)) / i

/-- Marks `fuel` successive multiples `j, j+i, j+2i, …` as composite
  (sets those positions of the boolean array to `false`). -/
def markLoop (i : ℕ) : ℕ → ℕ → List Bool → List Bool
  | 0, _, a => a
  | c + 1, j, a => markLoop i c (j + i) (a.set j false)

/-- Bounded linear search for the integer square root: starting from the
  candidate `r`, increment while `(r + 1)^2 ≤ n`. -/
def isqrtAux (n : ℕ) : ℕ → ℕ → ℕ
  | 0, r => r
  | f + 1, r => if (r + 1) * (r + 1) ≤ n then isqrtAux n f (r + 1) else r

/-- The integer square root, the embedding of Python's `int(n**0.5)` (with
  which it agrees at every bound used by the scripts; see `isqrt_eq_sqrt`). -/
def isqrt (n : ℕ) : ℕ :=
  isqrtAux n n 0

/-- Embeds the outer loop `for i in range(2, int(n**0.5) + 1)` of the sieve;
  the fuel counts the remaining values of `i`. -/
def sieveOuter (n : ℕ) : ℕ → ℕ → List Bool → List Bool
  | 0, _, a => a
  | c + 1, i, a =>
      sieveOuter n c (i + 1)
        (if a.getD i false then markLoop i (markCount i n) (i * i) a else a)

/-- The boolean array `is_prime` after the marking loops of `sieve_primes(n)`,
  for `n ≥ 1`: `[True] * (n+1)` with positions 0 and 1 set to `False`, then
  sieved.  All reads `a.getD i false` in the loops are in bounds, so `getD`
  faithfully embeds Python indexing. -/
def sieveArray (n : ℕ) : List Bool :=
  sieveOuter n (isqrt n - 1) 2
    (((List.replicate (n + 1) true).set 0 false).set 1 false)

/-- The final list comprehension `[i for i in range(2, n + 1) if is_prime[i]]`;
  as in the Python, the array is computed once and then only read. -/
def sievedList (n : ℕ) : List ℕ :=
  let a := sieveArray n
  (List.range' 2 (n - 1)).filter fun i => a.getD i false

/-- Embeds `sieve_primes(n)` (identical in both scripts).  For `n < 1` the
  Python code raises `IndexError` (the assignment `is_prime[1] = False` on a
  list of length `n + 1 ≤ 1`), which `none` models; otherwise the sieved list
  is returned. -/
def sieve_primes (n : ℤ) : Option (List ℕ) :=
  if n < 1 then none else some (sievedList n.toNat)

/-- Embeds `verify_omega(p_max)`: the conjunction, over the sieved primes, of
  `omega_brute_force(p) == omega_theory(p)`.  The Python loop is fail-soft
  (it keeps scanning after a mismatch) but returns the same conjunction. -/
def verify_omega (p_max : ℤ) : Option Bool :=
  (sieve_primes p_max).map fun ps =>
    ps.all fun p => (omega_brute_force p : ℤ) == omega_theory p

/-- Embeds the loop of `verify_mod47`: scans `fuel` values of `n` upward and
  returns `false` at the first `n` with `Q(n) % 47 ≠ 1`. -/
def mod47Loop : ℕ → ℕ → Bool
  | 0, _ => true
  | f + 1, n => if Qmod 47 n = 1 then mod47Loop f (n + 1) else false

/-- Embeds `verify_mod47(n_max)`: checks `n` in `range(n_max + 1)`. -/
def verify_mod47 (n_max : ℕ) : Bool :=
  mod47Loop (n_max + 1) 0

/-- Embeds the inner loop of `verify_no_small_divisors`: `false` as soon as
  some listed prime divides `Q(n)`. -/
def noSmallDivInner (n : ℕ) : List ℕ → Bool
  | [] => true
  | p :: ps => if Qmod p n = 0 then false else noSmallDivInner n ps

/-- Embeds the outer loop of `verify_no_small_divisors` over
  `n in range(2, n_max + 1)`. -/
def noSmallDivLoop (sp : List ℕ) : ℕ → ℕ → Bool
  | 0, _ => true
  | f + 1, n => if noSmallDivInner n sp then noSmallDivLoop sp f (n + 1) else false

/-- Embeds `verify_no_small_divisors(n_max)`: the small primes are
  `sieve_primes(282)` and `n` ranges over `range(2, n_max + 1)`. -/
def verify_no_small_divisors (n_max : ℕ) : Option Bool :=
  (sieve_primes 282).map fun sp => noSmallDivLoop sp (n_max - 1) 2

/-- Embeds the loop of `verify_smallest_bad_prime`: returns at the first prime
  `p` in the list with `(p - 1) % 47 == 0`, with value `p == 283`; `false`
  when the scan is exhausted. -/
def smallestBadLoop : List ℕ → Bool
  | [] => false
  | p :: ps => if (p - 1) % 47 = 0 then p == 283 else smallestBadLoop ps

/-- Embeds `verify_smallest_bad_prime()`: scans `sieve_primes(300)`. -/
def verify_smallest_bad_prime : Option Bool :=
  (sieve_primes 300).map smallestBadLoop

/-- The local Euler factor `(1 - w/p) / (1 - 1/p)` of `compute_CQ`, with
  `w = omega_Q(p)`, in exact rational arithmetic. -/
def CQfactor (p : ℕ) : ℚ :=
  (1 - (omega_Q (p : ℤ) : ℚ) / p) / (1 - 1 / p)

/-- Embeds the accumulation loop of `compute_CQ`: the state is the running
  product `C_Q` and the counters `n_shield`, `n_split`. -/
def CQloop : List ℕ → ℚ × ℕ × ℕ → ℚ × ℕ × ℕ
  | [], s => s
  | p :: ps, (c, nsh, nsp) =>
      CQloop ps
        (c * CQfactor p,
         if omega_Q (p : ℤ) = 0 then nsh + 1 else nsh,
         if omega_Q (p : ℤ) = 0 then nsp else nsp + 1)

/-- Embeds `compute_CQ(p_max)` of `compute_bateman_horn.py`: sieve, then fold
  the Euler factors over the primes in ascending order starting from `1.0`.
  The `verbose` console report and the Bateman-Horn prediction table are
  presentation only and drop out of the embedding; the returned value is the
  running product. -/
def compute_CQ (p_max : ℤ) : Option ℚ :=
  (sieve_primes p_max).map fun ps => (CQloop ps (1, 0, 0)).1

/-- Embeds the accumulation loop of `compute_sieve_weight`: the state is the
  pair `(W_Q, W_generic)`. -/
def sieveWeightLoop : List ℕ → ℚ × ℚ → ℚ × ℚ
  | [], s => s
  | p :: ps, (wq, wg) =>
      sieveWeightLoop ps
        (wq * (1 - (omega_Q (p : ℤ) : ℚ) / p),
         wg * (1 - (min 46 (p - 1) : ℕ) / p))

/-- The two truncated products accumulated by `compute_sieve_weight(z)`. -/
def sieve_weights (z : ℤ) : Option (ℚ × ℚ) :=
  (sieve_primes z).map fun ps => sieveWeightLoop ps (1, 1)

/-- Embeds `compute_sieve_weight(z)`: the function returns only `W_Q`. -/
def compute_sieve_weight (z : ℤ) : Option ℚ :=
  (sieve_weights z).map Prod.fst

/-- Proof-side helper (not part of the embedding): trial division by
  `d, d+1, …` while `d * d ≤ k`. -/
def isPrimeAux (k : ℕ) : ℕ → ℕ → Bool
  | 0, _ => true
  | f + 1, d =>
      if d * d ≤ k then (if k % d = 0 then false else isPrimeAux k f (d + 1))
      else true

/-- Proof-side helper: a kernel-computable primality test, proved equivalent
  to `Nat.Prime` in `isPrimeB_eq_true`. -/
def isPrimeB (k : ℕ) : Bool :=
  decide (2 ≤ k) && isPrimeAux k k 2

/-! ### The integer square root helper -/

theorem isqrtAux_eq (n f r : ℕ) (h1 : r * r ≤ n) (h2 : Nat.sqrt n ≤ r + f) :
    isqrtAux n f r = Nat.sqrt n := by
  induction f generalizing r with
  | zero =>
      have hle : r ≤ Nat.sqrt n := Nat.le_sqrt.mpr h1
      have : r = Nat.sqrt n := by omega
      simpa [isqrtAux] using this
  | succ f ih =>
      rw [isqrtAux]
      by_cases hc : (r + 1) * (r + 1) ≤ n
      · rw [if_pos hc]
        exact ih (r + 1) hc (by omega)
      · rw [if_neg hc]
        have hub : Nat.sqrt n < r + 1 := Nat.sqrt_lt.mpr (by omega)
        have hlb : r ≤ Nat.sqrt n := Nat.le_sqrt.mpr h1
        omega

theorem isqrt_eq_sqrt (n : ℕ) : isqrt n = Nat.sqrt n :=
  isqrtAux_eq n n 0 (by simp) (by simpa using Nat.sqrt_le_self n)

/-! ### Boolean-array lemmas for the sieve -/

theorem getD_set_false (a : List Bool) (j k : ℕ) :
    (a.set j false).getD k false = if k = j then false else a.getD k false := by
  by_cases h : k = j
  · subst h
    by_cases hl : k < a.length
    · simp [List.getD_eq_getElem?_getD, List.getElem?_set_self hl]
    · have hlen : (a.set k false).length ≤ k := by simpa using Nat.le_of_not_lt hl
      simp [List.getD_eq_getElem?_getD, List.getElem?_eq_none hlen]
  · simp [List.getD_eq_getElem?_getD, List.getElem?_set_ne (Ne.symm h), h]

theorem markLoop_length (i c j : ℕ) (a : List Bool) :
    (markLoop i c j a).length = a.length := by
  induction c generalizing j a with
  | zero => rfl
  | succ c ih => rw [markLoop, ih]; simp

theorem markLoop_getD (i c j k : ℕ) (a : List Bool) :
    (markLoop i c j a).getD k false = true ↔
      (a.getD k false = true ∧ ¬ ∃ t, t < c ∧ k = j + t * i) := by
  induction c generalizing j a with
  | zero => simp [markLoop]
  | succ c ih =>
      rw [markLoop, ih, getD_set_false]
      by_cases hkj : k = j
      · subst hkj
        constructor
        · intro h
          exact absurd h.1 (by simp)
        · rintro ⟨-, hn⟩
          exact absurd ⟨0, by omega, by simp⟩ hn
      · rw [if_neg hkj]
        constructor
        · rintro ⟨ha, hn⟩
          refine ⟨ha, ?_⟩
          rintro ⟨t, ht, rfl⟩
          match t with
          | 0 => exact hkj (by simp)
          | s + 1 => exact hn ⟨s, by omega, by ring⟩
        · rintro ⟨ha, hn⟩
          refine ⟨ha, ?_⟩
          rintro ⟨s, hs, rfl⟩
          exact hn ⟨s + 1, by omega, by ring⟩

theorem markCount_spec (i n k : ℕ) (hi : 1 ≤ i) (hk : k ≤ n) :
    (∃ t, t < markCount i n ∧ k = i * i + t * i) ↔ (i * i ≤ k ∧ i ∣ k) := by
  constructor
  · rintro ⟨t, ht, rfl⟩
    exact ⟨Nat.le_add_right _ _, ⟨i + t, by ring⟩⟩
  · rintro ⟨hik, m, rfl⟩
    have him : i ≤ m := Nat.le_of_mul_le_mul_left hik (by omega)
    have hmul : i * m = i * i + (m - i) * i := by
      rw [Nat.sub_mul]
      have h1 : i * i ≤ m * i := Nat.mul_le_mul_right i him
      rw [Nat.mul_comm i m]
      omega
    refine ⟨m - i, ?_, hmul⟩
    have hiin : i * i ≤ n := le_trans hik hk
    have h1 : (m - i) * i ≤ n - i * i := by
      rw [Nat.sub_mul]
      have h2 : m * i ≤ n := by rw [Nat.mul_comm m i]; exact hk
      omega
    have h2 : m - i ≤ (n - i * i) / i :=
      (Nat.le_div_iff_mul_le (by omega)).mpr h1
    have h3 : markCount i n = (n - i * i) / i + 1 := by
      unfold markCount
      have he : n + 1 - i * i + (i - 1) = (n - i * i) + i := by omega
      rw [he, Nat.add_div_right _ (by omega)]
    omega

theorem sieveOuter_length (n c i : ℕ) (a : List Bool) :
    (sieveOuter n c i a).length = a.length := by
  induction c generalizing i a with
  | zero => rfl
  | succ c ih =>
      rw [sieveOuter, ih]
      split
      · exact markLoop_length ..
      · rfl

theorem sieveOuter_invariant (n : ℕ) :
    ∀ c i (a : List Bool), 2 ≤ i → a.length = n + 1 →
    (∀ k, k ≤ n → (a.getD k false = true ↔
        2 ≤ k ∧ ∀ d, 2 ≤ d → d < i → d * d ≤ k → ¬ d ∣ k)) →
    ∀ k, k ≤ n → ((sieveOuter n c i a).getD k false = true ↔
        2 ≤ k ∧ ∀ d, 2 ≤ d → d < i + c → d * d ≤ k → ¬ d ∣ k) := by
  intro c
  induction c with
  | zero =>
      intro i a _ _ hInv k hk
      simpa using hInv k hk
  | succ c ih =>
      intro i a hi hlen hInv k hk
      rw [sieveOuter]
      have hii : i ≤ i * i := Nat.le_mul_of_pos_left i (by omega)
      have key : ∀ k, k ≤ n →
          ((if a.getD i false then markLoop i (markCount i n) (i * i) a else a).getD
              k false = true ↔
            2 ≤ k ∧ ∀ d, 2 ≤ d → d < i + 1 → d * d ≤ k → ¬ d ∣ k) := by
        intro k hk
        by_cases hai : a.getD i false = true
        · rw [if_pos hai, markLoop_getD, hInv k hk]
          constructor
          · rintro ⟨⟨h2k, hall⟩, hnm⟩
            refine ⟨h2k, fun d h2d hdi hdk hdvd => ?_⟩
            rcases Nat.lt_succ_iff_lt_or_eq.mp hdi with h | rfl
            · exact hall d h2d h hdk hdvd
            · exact hnm (((markCount_spec d n k (by omega) hk).mpr ⟨hdk, hdvd⟩))
          · rintro ⟨h2k, hall⟩
            refine ⟨⟨h2k, fun d h2d hdi hdk hdvd =>
              hall d h2d (by omega) hdk hdvd⟩, fun hm => ?_⟩
            have := (markCount_spec i n k (by omega) hk).mp hm
            exact hall i hi (by omega) this.1 this.2
        · rw [if_neg hai]
          rw [hInv k hk]
          have hstep : ∀ hdk : i * i ≤ k, ∀ hdvd : i ∣ k,
              (∀ d, 2 ≤ d → d < i → d * d ≤ k → ¬ d ∣ k) → False := by
            intro hdk hdvd hall
            by_cases hin : i ≤ n
            · have hiff := hInv i hin
              have hnot : ¬ (2 ≤ i ∧ ∀ d, 2 ≤ d → d < i → d * d ≤ i → ¬ d ∣ i) :=
                fun hgood => hai (hiff.mpr hgood)
              push_neg at hnot
              obtain ⟨e, h2e, hei, hee, hedvd⟩ := hnot hi
              exact hall e h2e hei (le_trans hee (le_trans hii hdk))
                (dvd_trans hedvd hdvd)
            · omega
          constructor
          · rintro ⟨h2k, hall⟩
            refine ⟨h2k, fun d h2d hdi hdk hdvd => ?_⟩
            rcases Nat.lt_succ_iff_lt_or_eq.mp hdi with h | rfl
            · exact hall d h2d h hdk hdvd
            · exact hstep hdk hdvd hall
          · rintro ⟨h2k, hall⟩
            exact ⟨h2k, fun d h2d hdi hdk hdvd => hall d h2d (by omega) hdk hdvd⟩
      have hlen' : (if a.getD i false then markLoop i (markCount i n) (i * i) a
          else a).length = n + 1 := by
        split
        · rw [markLoop_length]; exact hlen
        · exact hlen
      have := ih (i + 1) _ (by omega) hlen' key k hk
      have harith : i + 1 + c = i + (c + 1) := by omega
      rwa [harith] at this

theorem sieveInit_getD (n k : ℕ) (hk : k ≤ n) :
    ((((List.replicate (n + 1) true).set 0 false).set 1 false).getD k false = true)
      ↔ 2 ≤ k := by
  rw [getD_set_false, getD_set_false]
  by_cases h1 : k = 1
  · simp [h1]
  · rw [if_neg h1]
    by_cases h0 : k = 0
    · simp [h0]
    · rw [if_neg h0]
      simp [List.getD_eq_getElem?_getD, List.getElem?_replicate,
        Nat.lt_succ_of_le hk]
      omega

theorem sieveArray_getD (n k : ℕ) (hn : 1 ≤ n) (hk : k ≤ n) :
    ((sieveArray n).getD k false = true) ↔
      (2 ≤ k ∧ ∀ d, 2 ≤ d → d ≤ Nat.sqrt n → d * d ≤ k → ¬ d ∣ k) := by
  have hs1 : 1 ≤ Nat.sqrt n := Nat.sqrt_pos.mpr hn
  have hInit : ∀ k, k ≤ n →
      (((((List.replicate (n + 1) true).set 0 false).set 1 false).getD k false = true)
        ↔ 2 ≤ k ∧ ∀ d, 2 ≤ d → d < 2 → d * d ≤ k → ¬ d ∣ k) := by
    intro k hk
    rw [sieveInit_getD n k hk]
    constructor
    · exact fun h => ⟨h, fun d h2d hd2 => by omega⟩
    · exact fun h => h.1
  have hmain := sieveOuter_invariant n (isqrt n - 1) 2
    ((((List.replicate (n + 1) true).set 0 false).set 1 false)) (le_refl 2)
    (by simp) hInit k hk
  rw [isqrt_eq_sqrt] at hmain
  unfold sieveArray
  rw [isqrt_eq_sqrt, hmain]
  have hb : 2 + (Nat.sqrt n - 1) = Nat.sqrt n + 1 := by omega
  rw [hb]
  constructor
  · exact fun ⟨h2k, hall⟩ => ⟨h2k, fun d h2d hds => hall d h2d (by omega)⟩
  · exact fun ⟨h2k, hall⟩ => ⟨h2k, fun d h2d hds => hall d h2d (by omega)⟩

theorem prime_iff_forall (k : ℕ) (h2 : 2 ≤ k) :
    (∀ d, 2 ≤ d → d * d ≤ k → ¬ d ∣ k) ↔ Nat.Prime k := by
  constructor
  · intro h
    by_contra hnp
    have hp := Nat.minFac_prime (show k ≠ 1 by omega)
    have hsq : k.minFac * k.minFac ≤ k := by
      have := Nat.minFac_sq_le_self (show 0 < k by omega) hnp
      simpa [Nat.pow_two] using this
    exact h k.minFac hp.two_le hsq (Nat.minFac_dvd k)
  · intro hp d h2d hdk hdvd
    rcases (Nat.Prime.eq_one_or_self_of_dvd hp d hdvd) with h | h
    · omega
    · subst h
      have : d ≤ 1 := Nat.le_of_mul_le_mul_left (by simpa using hdk) (by omega)
      omega

theorem sieveArray_getD_prime (n k : ℕ) (hn : 1 ≤ n) (hk : k ≤ n) :
    ((sieveArray n).getD k false = true) ↔ Nat.Prime k := by
  rw [sieveArray_getD n k hn hk]
  constructor
  · rintro ⟨h2k, hall⟩
    rw [← prime_iff_forall k h2k]
    intro d h2d hdk hdvd
    have hdsq : d ≤ Nat.sqrt n := Nat.le_sqrt.mpr (le_trans hdk hk)
    exact hall d h2d hdsq hdk hdvd
  · intro hp
    refine ⟨hp.two_le, fun d h2d hds hdk hdvd => ?_⟩
    exact (prime_iff_forall k hp.two_le).mpr hp d h2d hdk hdvd

theorem mem_sievedList (n k : ℕ) (hn : 1 ≤ n) :
    k ∈ sievedList n ↔ (Nat.Prime k ∧ k ≤ n) := by
  show k ∈ (List.range' 2 (n - 1)).filter (fun i => (sieveArray n).getD i false) ↔ _
  rw [List.mem_filter]
  constructor
  · rintro ⟨hmem, hb⟩
    have hrange : 2 ≤ k ∧ k ≤ n := by
      rw [List.mem_range'] at hmem
      obtain ⟨j, hj, rfl⟩ := hmem
      omega
    exact ⟨(sieveArray_getD_prime n k hn hrange.2).mp hb, hrange.2⟩
  · rintro ⟨hp, hkn⟩
    have h2k : 2 ≤ k := hp.two_le
    refine ⟨?_, (sieveArray_getD_prime n k hn hkn).mpr hp⟩
    rw [List.mem_range']
    exact ⟨k - 2, by omega, by omega⟩

theorem sievedList_pairwise (n : ℕ) :
    List.Pairwise (· < ·) (sievedList n) := by
  show List.Pairwise (· < ·)
    ((List.range' 2 (n - 1)).filter (fun i => (sieveArray n).getD i false))
  exact (List.pairwise_lt_range' 2 (n - 1) 1 (by simp)).filter _

/-! ### The trial-division primality test -/

theorem isPrimeAux_eq_true (k : ℕ) :
    ∀ f d, 2 ≤ d → Nat.sqrt k < d + f →
      (isPrimeAux k f d = true ↔ ∀ e, d ≤ e → e * e ≤ k → ¬ e ∣ k) := by
  intro f
  induction f with
  | zero =>
      intro d h2d hf
      refine ⟨fun _ e hde hee hdvd => ?_, fun _ => rfl⟩
      have hse : Nat.sqrt k < e := by omega
      have : k < e * e := Nat.sqrt_lt.mp hse
      omega
  | succ f ih =>
      intro d h2d hf
      rw [isPrimeAux]
      by_cases hdd : d * d ≤ k
      · rw [if_pos hdd]
        by_cases hmod : k % d = 0
        · rw [if_pos hmod]
          have hdvd : d ∣ k := Nat.dvd_of_mod_eq_zero hmod
          simp only [Bool.false_eq_true, false_iff]
          intro hall
          exact hall d (le_refl d) hdd hdvd
        · rw [if_neg hmod]
          rw [ih (d + 1) (by omega) (by omega)]
          constructor
          · intro hall e hde hee hdvd
            rcases Nat.lt_or_ge d e with h | h
            · exact hall e (by omega) hee hdvd
            · have he : e = d := by omega
              subst he
              exact hmod (Nat.mod_eq_zero_of_dvd hdvd)
          · intro hall e hde hee hdvd
            exact hall e (by omega) hee hdvd
      · rw [if_neg hdd]
        refine ⟨fun _ e hde hee hdvd => ?_, fun _ => rfl⟩
        have : d * d ≤ e * e := Nat.mul_le_mul hde hde
        omega

theorem isPrimeB_eq_true (k : ℕ) : isPrimeB k = true ↔ Nat.Prime k := by
  unfold isPrimeB
  rw [Bool.and_eq_true, decide_eq_true_eq]
  have haux := isPrimeAux_eq_true k k 2 (le_refl 2)
    (by have := Nat.sqrt_le_self k; omega)
  constructor
  · rintro ⟨h2k, hx⟩
    rw [← prime_iff_forall k h2k]
    exact fun d h2d hdd hdvd => (haux.mp hx) d h2d hdd hdvd
  · intro hp
    refine ⟨hp.two_le, haux.mpr ?_⟩
    exact fun e h2e hee hdvd => (prime_iff_forall k hp.two_le).mpr hp e h2e hee hdvd

theorem sievedList_eq_filter (n : ℕ) (hn : 1 ≤ n) :
    sievedList n = (List.range' 2 (n - 1)).filter isPrimeB := by
  show (List.range' 2 (n - 1)).filter (fun i => (sieveArray n).getD i false) = _
  apply List.filter_congr
  intro k hkmem
  have hk2n : 2 ≤ k ∧ k ≤ n := by
    rw [List.mem_range'] at hkmem
    obtain ⟨j, hj, rfl⟩ := hkmem
    omega
  by_cases hp : Nat.Prime k
  · rw [(sieveArray_getD_prime n k hn hk2n.2).mpr hp, (isPrimeB_eq_true k).mpr hp]
  · have h1 : (sieveArray n).getD k false = false :=
      Bool.not_eq_true _ |>.mp fun h => hp ((sieveArray_getD_prime n k hn hk2n.2).mp h)
    have h2 : isPrimeB k = false :=
      Bool.not_eq_true _ |>.mp fun h => hp ((isPrimeB_eq_true k).mp h)
    rw [h1, h2]

theorem sieve_primes_eq (n : ℤ) (hn : 1 ≤ n) :
    sieve_primes n = some (sievedList n.toNat) := by
  unfold sieve_primes
  rw [if_neg (by omega)]

/-! ### ZMod facts about Q(n) = n^47 - (n-1)^47 -/

theorem Qmod_lt (p n : ℕ) (hp : 0 < p) : Qmod p n < p :=
  Nat.mod_lt _ hp

theorem Qmod_cast (p n : ℕ) (hp : 1 ≤ p) :
    ((Qmod p n : ZMod p)) = (n : ZMod p) ^ 47 - ((n : ZMod p) - 1) ^ 47 := by
  unfold Qmod pow_mod
  have hB : ((n + p - 1) % p) ^ 47 % p ≤ n ^ 47 % p + p :=
    le_of_lt (lt_of_lt_of_le (Nat.mod_lt _ (by omega)) (by omega))
  have h1 : 1 ≤ n + p := by omega
  have hp1 : (((p - 1 : ℕ)) : ZMod p) = -1 := by
    rw [Nat.cast_sub hp, ZMod.natCast_self]
    ring
  have hnp1 : n + p - 1 = n + (p - 1) := by omega
  rw [ZMod.natCast_mod, Nat.cast_sub hB, Nat.cast_add, ZMod.natCast_mod,
    ZMod.natCast_self, Nat.cast_pow, ZMod.natCast_mod, Nat.cast_pow,
    ZMod.natCast_mod, hnp1, Nat.cast_add, hp1]
  ring

theorem Qmod_eq_iff (p n v : ℕ) (hv : v < p) :
    Qmod p n = v ↔ ((Qmod p n : ZMod p) = (v : ZMod p)) := by
  constructor
  · intro h; rw [h]
  · intro h
    have h1 := ZMod.val_cast_of_lt (Qmod_lt p n (by omega))
    have h2 := ZMod.val_cast_of_lt hv
    rw [← h1, ← h2, h]

theorem Qmod_47 (n : ℕ) : Qmod 47 n = 1 := by
  haveI : Fact (Nat.Prime 47) := ⟨by norm_num⟩
  rw [Qmod_eq_iff 47 n 1 (by norm_num), Qmod_cast 47 n (by norm_num)]
  rw [ZMod.pow_card, ZMod.pow_card]
  push_cast
  ring

theorem pow47_injective (p : ℕ) (hp : p.Prime) (h47 : ¬ (47 ∣ p - 1)) :
    Function.Injective (fun x : ZMod p => x ^ 47) := by
  haveI : Fact p.Prime := ⟨hp⟩
  have h47p : Nat.Prime 47 := by norm_num
  have hcop : (Nat.card (ZMod p)ˣ).Coprime 47 := by
    rw [Nat.card_eq_fintype_card, ZMod.card_units]
    exact (h47p.coprime_iff_not_dvd.mpr h47).symm
  intro x y hxy
  simp only at hxy
  by_cases hx : x = 0
  · subst hx
    have hy0 : y ^ 47 = 0 := by rw [← hxy]; simp
    exact ((pow_eq_zero_iff (by norm_num : (47 : ℕ) ≠ 0)).mp hy0).symm
  · by_cases hy : y = 0
    · subst hy
      have hx0 : x ^ 47 = 0 := by rw [hxy]; simp
      exact absurd ((pow_eq_zero_iff (by norm_num : (47 : ℕ) ≠ 0)).mp hx0) hx
    · have hu : (Units.mk0 x hx) ^ 47 = (Units.mk0 y hy) ^ 47 := by
        apply Units.ext
        simpa [Units.val_pow_eq_pow_val] using hxy
      have := (Nat.Coprime.pow_left_bijective hcop).injective hu
      have hval := congrArg Units.val this
      simpa using hval

theorem Qmod_ne_zero (p : ℕ) (hp : p.Prime) (h47 : ¬ (47 ∣ p - 1)) (n : ℕ) :
    Qmod p n ≠ 0 := by
  haveI : Fact p.Prime := ⟨hp⟩
  intro h0
  have hcast : ((Qmod p n : ZMod p)) = 0 := by rw [h0]; simp
  rw [Qmod_cast p n (by have := hp.two_le; omega)] at hcast
  have hxy : ((n : ZMod p)) ^ 47 = ((n : ZMod p) - 1) ^ 47 := sub_eq_zero.mp hcast
  have heq := pow47_injective p hp h47 hxy
  simp only at heq
  have h10 : (1 : ZMod p) = 0 := by
    have := sub_eq_self.mp heq.symm
    exact this
  exact one_ne_zero h10

theorem omega_count_const (p : ℕ) (h : ∀ m, Qmod p m ≠ 0) :
    ∀ f n acc, omega_count p f n acc = acc := by
  intro f
  induction f with
  | zero => intro n acc; rfl
  | succ f ih => intro n acc; rw [omega_count, if_neg (h n)]; exact ih _ _

theorem omega_brute_force_eq_zero (p : ℕ) (hp : p.Prime) (h47 : ¬ (47 ∣ p - 1)) :
    omega_brute_force p = 0 := by
  unfold omega_brute_force
  exact omega_count_const p (Qmod_ne_zero p hp h47) p 0 0

/-! ### The value of the theoretical classifier on natural inputs -/

theorem omega_theory_natCast_of_not_dvd (p : ℕ) (h1 : 1 ≤ p) (h47 : ¬ (47 ∣ p - 1)) :
    omega_theory (p : ℤ) = 0 := by
  unfold omega_theory
  by_cases hp47 : (p : ℤ) = 47
  · rw [if_pos hp47]
  · rw [if_neg hp47, if_neg]
    intro hmod
    have hdvd : (47 : ℤ) ∣ (p : ℤ) - 1 := Int.dvd_of_emod_eq_zero hmod
    have hcast : ((p - 1 : ℕ) : ℤ) = (p : ℤ) - 1 := by
      rw [Nat.cast_sub h1]
      norm_num
    rw [← hcast] at hdvd
    exact h47 (by exact_mod_cast hdvd)

theorem omega_theory_natCast_of_dvd (p : ℕ) (h1 : 1 ≤ p) (hne : p ≠ 47)
    (h47 : 47 ∣ p - 1) : omega_theory (p : ℤ) = 46 := by
  unfold omega_theory
  rw [if_neg (by exact_mod_cast hne), if_pos]
  obtain ⟨k, hk⟩ := h47
  have hcast : (p : ℤ) - 1 = 47 * (k : ℤ) := by
    have : ((p - 1 : ℕ) : ℤ) = (p : ℤ) - 1 := by
      rw [Nat.cast_sub h1]
      norm_num
    rw [← this, hk]
    push_cast
    ring
  rw [hcast, Int.mul_emod_right]

/-! ### Splitting the brute-force count, and its value at the split primes -/

theorem omega_count_add (p f g n acc : ℕ) :
    omega_count p (f + g) n acc = omega_count p g (n + f) (omega_count p f n acc) := by
  induction f generalizing n acc with
  | zero => simp [omega_count]
  | succ f ih =>
      have hshape : f + 1 + g = (f + g) + 1 := by omega
      have harr : n + 1 + f = n + (f + 1) := by omega
      rw [hshape, omega_count, omega_count]
      by_cases h : Qmod p n = 0
      · rw [if_pos h, if_pos h, ih, harr]
      · rw [if_neg h, if_neg h, ih, harr]

theorem omega_brute_283 : omega_brute_force 283 = 46 := by decide

theorem omega_brute_659 : omega_brute_force 659 = 46 := by decide

theorem omega_brute_941 : omega_brute_force 941 = 46 := by decide

theorem omega_brute_1129 : omega_brute_force 1129 = 46 := by decide

theorem omega_brute_1223 : omega_brute_force 1223 = 46 := by decide

theorem omega_brute_1693 : omega_brute_force 1693 = 46 := by decide

theorem omega_brute_1787 : omega_brute_force 1787 = 46 := by decide

theorem omega_brute_2069 : omega_brute_force 2069 = 46 := by decide

theorem omega_brute_2351 : omega_brute_force 2351 = 46 := by decide

theorem omega_brute_2539 : omega_brute_force 2539 = 46 := by decide

theorem omega_brute_2633 : omega_brute_force 2633 = 46 := by decide

theorem omega_brute_3761 : omega_brute_force 3761 = 46 := by decide

theorem omega_brute_4231 : omega_brute_force 4231 = 46 := by
  have h1 : omega_count 4231 3200 0 0 = 35 := by decide
  have h2 : omega_count 4231 1031 3200 35 = 46 := by decide
  show omega_count 4231 4231 0 0 = 46
  rw [show (4231 : ℕ) = 3200 + 1031 from rfl, omega_count_add, h1]
  exact h2

theorem omega_brute_4513 : omega_brute_force 4513 = 46 := by
  have h1 : omega_count 4513 3200 0 0 = 33 := by decide
  have h2 : omega_count 4513 1313 3200 33 = 46 := by decide
  show omega_count 4513 4513 0 0 = 46
  rw [show (4513 : ℕ) = 3200 + 1313 from rfl, omega_count_add, h1]
  exact h2

theorem omega_brute_4889 : omega_brute_force 4889 = 46 := by
  have h1 : omega_count 4889 3200 0 0 = 29 := by decide
  have h2 : omega_count 4889 1689 3200 29 = 46 := by decide
  show omega_count 4889 4889 0 0 = 46
  rw [show (4889 : ℕ) = 3200 + 1689 from rfl, omega_count_add, h1]
  exact h2

theorem omega_brute_5077 : omega_brute_force 5077 = 46 := by
  have h1 : omega_count 5077 3200 0 0 = 32 := by decide
  have h2 : omega_count 5077 1877 3200 32 = 46 := by decide
  show omega_count 5077 5077 0 0 = 46
  rw [show (5077 : ℕ) = 3200 + 1877 from rfl, omega_count_add, h1]
  exact h2

theorem omega_brute_5171 : omega_brute_force 5171 = 46 := by
  have h1 : omega_count 5171 3200 0 0 = 29 := by decide
  have h2 : omega_count 5171 1971 3200 29 = 46 := by decide
  show omega_count 5171 5171 0 0 = 46
  rw [show (5171 : ℕ) = 3200 + 1971 from rfl, omega_count_add, h1]
  exact h2

theorem omega_brute_5641 : omega_brute_force 5641 = 46 := by
  have h1 : omega_count 5641 3200 0 0 = 30 := by decide
  have h2 : omega_count 5641 2441 3200 30 = 46 := by decide
  show omega_count 5641 5641 0 0 = 46
  rw [show (5641 : ℕ) = 3200 + 2441 from rfl, omega_count_add, h1]
  exact h2

theorem omega_brute_5923 : omega_brute_force 5923 = 46 := by
  have h1 : omega_count 5923 3200 0 0 = 26 := by decide
  have h2 : omega_count 5923 2723 3200 26 = 46 := by decide
  show omega_count 5923 5923 0 0 = 46
  rw [show (5923 : ℕ) = 3200 + 2723 from rfl, omega_count_add, h1]
  exact h2

theorem omega_brute_6299 : omega_brute_force 6299 = 46 := by
  have h1 : omega_count 6299 3200 0 0 = 24 := by decide
  have h2 : omega_count 6299 3099 3200 24 = 46 := by decide
  show omega_count 6299 6299 0 0 = 46
  rw [show (6299 : ℕ) = 3200 + 3099 from rfl, omega_count_add, h1]
  exact h2

/-- The split primes up to 6299: every prime `p ≤ 6299` with `47 ∣ p - 1`
  appears in the explicit list. -/
theorem split_prime_mem (p : ℕ) (hp : p.Prime) (hle : p ≤ 6299) (h47 : 47 ∣ p - 1) :
    p ∈ [283, 659, 941, 1129, 1223, 1693, 1787, 2069, 2351, 2539, 2633, 3761,
      4231, 4513, 4889, 5077, 5171, 5641, 5923, 6299] := by
  obtain ⟨k, hk⟩ := h47
  have h2p : 2 ≤ p := hp.two_le
  have hpk : p = 47 * k + 1 := by omega
  have hklt : k < 135 := by omega
  have hdec : ∀ k, k < 135 → isPrimeB (47 * k + 1) = true →
      (47 * k + 1) ∈ [283, 659, 941, 1129, 1223, 1693, 1787, 2069, 2351, 2539,
        2633, 3761, 4231, 4513, 4889, 5077, 5171, 5641, 5923, 6299] := by decide
  subst hpk
  exact hdec k hklt ((isPrimeB_eq_true _).mpr hp)

/-- For every prime `p ≤ 6299` the brute-force count agrees with the
  theoretical classifier. -/
theorem omega_brute_eq_theory (p : ℕ) (hp : p.Prime) (hle : p ≤ 6299) :
    (omega_brute_force p : ℤ) = omega_theory (p : ℤ) := by
  have h2p : 2 ≤ p := hp.two_le
  by_cases h47 : 47 ∣ p - 1
  · have hne : p ≠ 47 := by
      rintro rfl
      omega
    have hmem := split_prime_mem p hp hle h47
    have h46 : omega_brute_force p = 46 := by
      simp only [List.mem_cons, List.not_mem_nil, or_false] at hmem
      rcases hmem with rfl | rfl | rfl | rfl | rfl | rfl | rfl | rfl | rfl | rfl |
        rfl | rfl | rfl | rfl | rfl | rfl | rfl | rfl | rfl | rfl
      · exact omega_brute_283
      · exact omega_brute_659
      · exact omega_brute_941
      · exact omega_brute_1129
      · exact omega_brute_1223
      · exact omega_brute_1693
      · exact omega_brute_1787
      · exact omega_brute_2069
      · exact omega_brute_2351
      · exact omega_brute_2539
      · exact omega_brute_2633
      · exact omega_brute_3761
      · exact omega_brute_4231
      · exact omega_brute_4513
      · exact omega_brute_4889
      · exact omega_brute_5077
      · exact omega_brute_5171
      · exact omega_brute_5641
      · exact omega_brute_5923
      · exact omega_brute_6299
    rw [h46, omega_theory_natCast_of_dvd p (by omega) hne h47]
    norm_num
  · rw [omega_brute_force_eq_zero p hp h47,
      omega_theory_natCast_of_not_dvd p (by omega) h47]
    norm_num

/-! ### The verification loops return true -/

theorem verify_omega_6299_eq : verify_omega 6299 = some true := by
  unfold verify_omega
  rw [sieve_primes_eq 6299 (by norm_num), Option.map_some',
    show ((6299 : ℤ)).toNat = 6299 from rfl]
  refine congrArg some (List.all_eq_true.mpr ?_)
  intro p hp
  have hmem := (mem_sievedList 6299 p (by norm_num)).mp hp
  exact beq_iff_eq.mpr (omega_brute_eq_theory p hmem.1 hmem.2)

theorem mod47Loop_true (f n : ℕ) : mod47Loop f n = true := by
  induction f generalizing n with
  | zero => rfl
  | succ f ih => rw [mod47Loop, if_pos (Qmod_47 n)]; exact ih _

theorem verify_mod47_true (n_max : ℕ) : verify_mod47 n_max = true :=
  mod47Loop_true _ _

theorem no_split_below_283 (p : ℕ) (hp : p.Prime) (hlt : p < 283) :
    ¬ (47 ∣ p - 1) := by
  intro h47
  obtain ⟨k, hk⟩ := h47
  have h2p : 2 ≤ p := hp.two_le
  have hpk : p = 47 * k + 1 := by omega
  have hklt : k < 6 := by omega
  have hdec : ∀ k, k < 6 → isPrimeB (47 * k + 1) = false := by decide
  have hfalse := hdec k hklt
  rw [hpk] at hp
  rw [(isPrimeB_eq_true _).mpr hp] at hfalse
  cases hfalse

theorem Qmod_ne_zero_small (p : ℕ) (hp : p.Prime) (hlt : p < 283) (n : ℕ) :
    Qmod p n ≠ 0 :=
  Qmod_ne_zero p hp (no_split_below_283 p hp hlt) n

theorem noSmallDivInner_true (n : ℕ) (sp : List ℕ)
    (h : ∀ p ∈ sp, Qmod p n ≠ 0) : noSmallDivInner n sp = true := by
  induction sp with
  | nil => rfl
  | cons p ps ih =>
      rw [noSmallDivInner, if_neg (h p (List.mem_cons_self p ps))]
      exact ih fun q hq => h q (List.mem_cons_of_mem p hq)

theorem noSmallDivLoop_true (sp : List ℕ) (hsp : ∀ p ∈ sp, ∀ n, Qmod p n ≠ 0) :
    ∀ f n, noSmallDivLoop sp f n = true := by
  intro f
  induction f with
  | zero => intro n; rfl
  | succ f ih =>
      intro n
      rw [noSmallDivLoop,
        if_pos (noSmallDivInner_true n sp (fun p hp => hsp p hp n))]
      exact ih _

theorem verify_no_small_divisors_true (n_max : ℕ) :
    verify_no_small_divisors n_max = some true := by
  unfold verify_no_small_divisors
  rw [sieve_primes_eq 282 (by norm_num), Option.map_some',
    show ((282 : ℤ)).toNat = 282 from rfl]
  refine congrArg some (noSmallDivLoop_true _ ?_ _ _)
  intro p hp n
  have hmem := (mem_sievedList 282 p (by norm_num)).mp hp
  exact Qmod_ne_zero_small p hmem.1 (by omega) n

theorem verify_smallest_bad_prime_true : verify_smallest_bad_prime = some true := by
  unfold verify_smallest_bad_prime
  rw [sieve_primes_eq 300 (by norm_num), Option.map_some',
    show ((300 : ℤ)).toNat = 300 from rfl,
    sievedList_eq_filter 300 (by norm_num)]
  refine congrArg some ?_
  decide

/-! ### The Euler-product accumulator as a fold -/

theorem CQloop_fst (ps : List ℕ) :
    ∀ (c : ℚ) (nsh nsp : ℕ),
      (CQloop ps (c, nsh, nsp)).1 = ps.foldl (fun acc p => acc * CQfactor p) c := by
  induction ps with
  | nil => intro c nsh nsp; rfl
  | cons p ps ih =>
      intro c nsh nsp
      rw [CQloop, List.foldl_cons]
      exact ih _ _ _

/-! ### The sieve-weight comparison -/

theorem emod47_eq_zero_iff (p : ℕ) (h1 : 1 ≤ p) :
    (((p : ℤ) - 1) % 47 = 0) ↔ 47 ∣ (p - 1) := by
  have hcast : ((p - 1 : ℕ) : ℤ) = (p : ℤ) - 1 := by
    rw [Nat.cast_sub h1]
    norm_num
  constructor
  · intro h
    have hdvd := Int.dvd_of_emod_eq_zero h
    rw [← hcast] at hdvd
    exact_mod_cast hdvd
  · intro h
    rw [← hcast]
    exact Int.emod_eq_zero_of_dvd (by exact_mod_cast h)

theorem omega_Q_cases (p : ℕ) (hp : p.Prime) :
    omega_Q (p : ℤ) = 0 ∨ (omega_Q (p : ℤ) = 46 ∧ 48 ≤ p) := by
  unfold omega_Q
  by_cases h47 : (p : ℤ) = 47
  · left
    rw [if_pos h47]
  · rw [if_neg h47]
    by_cases hmod : ((p : ℤ) - 1) % 47 = 0
    · right
      rw [if_pos hmod]
      refine ⟨rfl, ?_⟩
      have h2p : 2 ≤ p := hp.two_le
      have hdvd : 47 ∣ p - 1 := (emod47_eq_zero_iff p (by omega)).mp hmod
      obtain ⟨k, hk⟩ := hdvd
      have hpne : p ≠ 47 := fun h => h47 (by exact_mod_cast h)
      omega
    · left
      rw [if_neg hmod]

theorem sieveWeightLoop_append (xs ys : List ℕ) (s : ℚ × ℚ) :
    sieveWeightLoop (xs ++ ys) s = sieveWeightLoop ys (sieveWeightLoop xs s) := by
  induction xs generalizing s with
  | nil => rfl
  | cons p xs ih =>
      obtain ⟨wq, wg⟩ := s
      rw [List.cons_append, sieveWeightLoop, sieveWeightLoop]
      exact ih _

theorem sieveWeightLoop_ratio (c : ℚ) (hc : 0 ≤ c) :
    ∀ ps : List ℕ, (∀ p ∈ ps, p.Prime) → ∀ wq wg : ℚ, 0 < wg → c * wg ≤ wq →
      0 < (sieveWeightLoop ps (wq, wg)).2 ∧
        c * (sieveWeightLoop ps (wq, wg)).2 ≤ (sieveWeightLoop ps (wq, wg)).1 := by
  intro ps
  induction ps with
  | nil => exact fun _ wq wg h1 h2 => ⟨h1, h2⟩
  | cons p ps ih =>
      intro hall wq wg hwg hcw
      have hp : p.Prime := hall p (List.mem_cons_self p ps)
      have hp2 : 2 ≤ p := hp.two_le
      have hppos : (0 : ℚ) < (p : ℚ) := by exact_mod_cast (by omega : 0 < p)
      have hmin_lt : min 46 (p - 1) < p := by omega
      have hfg_pos : 0 < 1 - ((min 46 (p - 1) : ℕ) : ℚ) / p := by
        rw [sub_pos, div_lt_one hppos]
        exact_mod_cast hmin_lt
      have hfg_le1 : 1 - ((min 46 (p - 1) : ℕ) : ℚ) / p ≤ 1 := by
        have hnn : 0 ≤ ((min 46 (p - 1) : ℕ) : ℚ) / p := by positivity
        linarith
      have hfq_ge : 1 - ((min 46 (p - 1) : ℕ) : ℚ) / p ≤ 1 - (omega_Q (p : ℤ) : ℚ) / p := by
        rcases omega_Q_cases p hp with h0 | ⟨h46, h48⟩
        · rw [h0]
          simp only [Int.cast_zero, zero_div, sub_zero]
          exact hfg_le1
        · rw [h46]
          have hminval : min 46 (p - 1) = 46 := by omega
          rw [hminval]
          norm_num
      rw [sieveWeightLoop]
      apply ih (fun q hq => hall q (List.mem_cons_of_mem p hq))
      · exact mul_pos hwg hfg_pos
      · have h1 : c * (wg * (1 - ((min 46 (p - 1) : ℕ) : ℚ) / p)) =
            (c * wg) * (1 - ((min 46 (p - 1) : ℕ) : ℚ) / p) := by ring
        rw [h1]
        have h2 : (c * wg) * (1 - ((min 46 (p - 1) : ℕ) : ℚ) / p) ≤
            wq * (1 - ((min 46 (p - 1) : ℕ) : ℚ) / p) :=
          mul_le_mul_of_nonneg_right hcw (le_of_lt hfg_pos)
        have hwq0 : 0 ≤ wq := le_trans (mul_nonneg hc (le_of_lt hwg)) hcw
        have h3 : wq * (1 - ((min 46 (p - 1) : ℕ) : ℚ) / p) ≤
            wq * (1 - (omega_Q (p : ℤ) : ℚ) / p) :=
          mul_le_mul_of_nonneg_left hfq_ge hwq0
        exact le_trans h2 h3

/-! ### The claims -/

/-- Claim C1: for every prime p ≤ 6299 the theoretical classifier and the
  brute-force residue scan agree, `omega_theory(p) == omega_brute_force(p)`,
  and consequently `verify_omega(6299)` returns True. -/
theorem claim_C1 :
    (∀ p : ℕ, p.Prime → p ≤ 6299 →
      omega_theory (p : ℤ) = (omega_brute_force p : ℤ)) ∧
    verify_omega 6299 = some true :=
  ⟨fun p hp hle => (omega_brute_eq_theory p hp hle).symm, verify_omega_6299_eq⟩

/-- Witness for C1 at the split prime p = 283. -/
theorem claim_C1_witness :
    omega_theory ((283 : ℕ) : ℤ) = (omega_brute_force 283 : ℤ) :=
  claim_C1.1 283 (by norm_num) (by norm_num)

/-- Claim C2: for every n in [0, 100000], (n^47 - (n-1)^47) mod 47 = 1, with
  (n-1) reduced mod 47 before exponentiation, and `verify_mod47(100000)`
  returns True.  (The congruence in fact holds for every n.) -/
theorem claim_C2 :
    (∀ n : ℕ, n ≤ 100000 → Qmod 47 n = 1) ∧ verify_mod47 100000 = true :=
  ⟨fun n _ => Qmod_47 n, verify_mod47_true 100000⟩

/-- Witness for C2 at n = 12345. -/
theorem claim_C2_witness : Qmod 47 12345 = 1 :=
  claim_C2.1 12345 (by norm_num)

/-- Claim C3: for every n in [2, 10000] and every prime p < 283,
  (n^47 - (n-1)^47) mod p is nonzero, and `verify_no_small_divisors(10000)`
  returns True.  (The nonvanishing in fact holds for every n.) -/
theorem claim_C3 :
    (∀ n : ℕ, 2 ≤ n → n ≤ 10000 → ∀ p : ℕ, p.Prime → p < 283 → Qmod p n ≠ 0) ∧
    verify_no_small_divisors 10000 = some true :=
  ⟨fun n _ _ p hp hlt => Qmod_ne_zero_small p hp hlt n,
    verify_no_small_divisors_true 10000⟩

/-- Witness for C3 at n = 2, p = 281. -/
theorem claim_C3_witness : Qmod 281 2 ≠ 0 :=
  claim_C3.1 2 (le_refl 2) (by norm_num) 281 (by norm_num) (by norm_num)

/-- Claim C4: no prime below 283 is ≡ 1 (mod 47), 283 is prime with
  283 - 1 = 6·47 divisible by 47, so the first prime the ascending scan stops
  at is 283, and `verify_smallest_bad_prime()` returns True. -/
theorem claim_C4 :
    (∀ p : ℕ, p.Prime → p < 283 → ¬ (47 ∣ p - 1)) ∧ Nat.Prime 283 ∧
      47 ∣ 283 - 1 ∧ verify_smallest_bad_prime = some true :=
  ⟨no_split_below_283, by norm_num, by norm_num, verify_smallest_bad_prime_true⟩

/-- Witness for C4 at the prime 281. -/
theorem claim_C4_witness : ¬ (47 ∣ 281 - 1) :=
  claim_C4.1 281 (by norm_num) (by norm_num)

/-- Claim C5 (code bug): the spec asks that every n < 2 yield an empty
  sequence without error, but `sieve_primes(0)` raises IndexError (the
  assignment `is_prime[1] = False` on a list of length 1, modelled by `none`);
  n = 1 and n = 2 do behave as specified. -/
theorem claim_C5 :
    sieve_primes 0 = none ∧ sieve_primes (-1) = none ∧
      sieve_primes 1 = some [] ∧ sieve_primes 2 = some [2] := by
  refine ⟨rfl, rfl, ?_, ?_⟩ <;> decide

/-- Claim C6 (code bug): `compute_CQ` performs no input-domain validation:
  at the out-of-domain bound p_max = 1 it silently computes the empty product
  and returns 1.0 instead of reporting an error, and at p_max = 0 the failure
  is an uncontrolled IndexError from inside the sieve (modelled by `none`). -/
theorem claim_C6 : compute_CQ 1 = some 1 ∧ compute_CQ 0 = none := by
  refine ⟨?_, rfl⟩
  decide

/-- Counterexample to Claim C7 as stated: at n = 0 the sieve does not return
  a sequence at all (IndexError, modelled by `none`). -/
theorem claim_C7_counterexample : sieve_primes 0 = none := rfl

/-- Claim C7 (amended to n ≥ 1): for every n ≥ 1, `sieve_primes(n)` returns a
  strictly ascending duplicate-free list whose members are exactly the primes
  in [2, n]; in particular `sieve_primes(10) = [2, 3, 5, 7]`. -/
theorem claim_C7 :
    (∀ n : ℤ, 1 ≤ n → ∃ l, sieve_primes n = some l ∧
      List.Pairwise (· < ·) l ∧
      (∀ k : ℕ, k ∈ l ↔ (Nat.Prime k ∧ 2 ≤ k ∧ (k : ℤ) ≤ n))) ∧
    sieve_primes 10 = some [2, 3, 5, 7] := by
  constructor
  · intro n hn
    refine ⟨sievedList n.toNat, sieve_primes_eq n hn, sievedList_pairwise _, ?_⟩
    intro k
    rw [mem_sievedList n.toNat k (by omega)]
    constructor
    · rintro ⟨hp, hk⟩
      exact ⟨hp, hp.two_le, by omega⟩
    · rintro ⟨hp, _, hk⟩
      exact ⟨hp, by omega⟩
  · decide

/-- Witness for the amended C7 at n = 7. -/
theorem claim_C7_witness :
    ∃ l, sieve_primes 7 = some l ∧ List.Pairwise (· < ·) l ∧
      (∀ k : ℕ, k ∈ l ↔ (Nat.Prime k ∧ 2 ≤ k ∧ (k : ℤ) ≤ 7)) :=
  claim_C7.1 7 (by norm_num)

/-- Claim C8: for every p_max ≥ 2, `compute_CQ(p_max)` equals the left fold
  of multiplication by the local factor over the sieved primes (which are
  exactly the primes ≤ p_max, listed in ascending order), starting at 1.0. -/
theorem claim_C8 :
    ∀ p_max : ℤ, 2 ≤ p_max →
      compute_CQ p_max =
        some ((sievedList p_max.toNat).foldl (fun acc p => acc * CQfactor p) 1) ∧
      List.Pairwise (· < ·) (sievedList p_max.toNat) ∧
      (∀ k : ℕ, k ∈ sievedList p_max.toNat ↔ (Nat.Prime k ∧ (k : ℤ) ≤ p_max)) := by
  intro p_max h2
  refine ⟨?_, sievedList_pairwise _, ?_⟩
  · unfold compute_CQ
    rw [sieve_primes_eq p_max (by omega), Option.map_some']
    exact congrArg some (CQloop_fst _ _ _ _)
  · intro k
    rw [mem_sievedList _ k (by omega)]
    constructor
    · rintro ⟨hp, hk⟩
      exact ⟨hp, by omega⟩
    · rintro ⟨hp, hk⟩
      exact ⟨hp, by omega⟩

/-- Witness for C8 at p_max = 10. -/
theorem claim_C8_witness :
    compute_CQ 10 =
      some ((sievedList (10 : ℤ).toNat).foldl (fun acc p => acc * CQfactor p) 1) :=
  (claim_C8 10 (by norm_num)).1

/-- Claim C9: with z = 2000 the two truncated products of
  `compute_sieve_weight` satisfy W_Q > W_generic, and the ratio exceeds a
  million (the proof gives W_Q ≥ 9699690 · W_generic). -/
theorem claim_C9 :
    ∃ wq wg : ℚ, sieve_weights 2000 = some (wq, wg) ∧ wg < wq ∧
      1000000 * wg < wq := by
  have hlist : sievedList 2000 =
      (List.range' 2 18).filter isPrimeB ++ (List.range' 20 1981).filter isPrimeB := by
    rw [sievedList_eq_filter 2000 (by norm_num), ← List.filter_append]
    refine congrArg (List.filter isPrimeB) ?_
    have happ := List.range'_append 2 18 1981 1
    norm_num at happ
    exact happ.symm
  have hsmall : (List.range' 2 18).filter isPrimeB = [2, 3, 5, 7, 11, 13, 17, 19] := by
    decide
  have hsw : sieveWeightLoop [2, 3, 5, 7, 11, 13, 17, 19] (1, 1) =
      (1, 1 / 9699690) := by
    norm_num [sieveWeightLoop, omega_Q]
  have hratio := sieveWeightLoop_ratio 9699690 (by norm_num)
    ((List.range' 20 1981).filter isPrimeB)
    (fun q hq => (isPrimeB_eq_true q).mp (List.of_mem_filter hq))
    1 (1 / 9699690) (by norm_num) (by norm_num)
  have hfull : sieveWeightLoop (sievedList 2000) (1, 1) =
      sieveWeightLoop ((List.range' 20 1981).filter isPrimeB) (1, 1 / 9699690) := by
    rw [hlist, sieveWeightLoop_append, hsmall, hsw]
  rcases hx : sieveWeightLoop (sievedList 2000) (1, 1) with ⟨wq, wg⟩
  have hs2 : sieveWeightLoop ((List.range' 20 1981).filter isPrimeB)
      (1, 1 / 9699690) = (wq, wg) := by
    rw [← hfull, hx]
  rw [hs2] at hratio
  have hpos : 0 < wg := hratio.1
  have hle : 9699690 * wg ≤ wq := hratio.2
  refine ⟨wq, wg, ?_, by linarith, by linarith⟩
  unfold sieve_weights
  rw [sieve_primes_eq 2000 (by norm_num), Option.map_some',
    show ((2000 : ℤ)).toNat = 2000 from rfl, hx]

/-- Claim C10: the classifier `omega_Q` of compute_bateman_horn.py and the
  classifier `omega_theory` of verify_local_obstruction.py are extensionally
  equal on every integer input. -/
theorem claim_C10 : ∀ p : ℤ, omega_Q p = omega_theory p :=
  fun _ => rfl

end Titan
